import Mathlib

/-!
# PCA pipeline: formalisation of the notebook's computational core

The notebook `src/learning/unsupervised/principal_component_analysis.ipynb`
describes a PCA pipeline as mathematical formulas:

* Step 1 (z-score normalization): `z_ij = (x_ij - μ_j) / σ_j`;
* Step 2 (covariance): `Σ = (1/n) Xᵀ X` for centered data `X`;
* Step 3 (eigendecomposition): `Σ v = λ v`, giving `d` eigenvalue/eigenvector
  pairs, sorted by decreasing eigenvalue;
* Step 4 (component selection): `W_k` collects the selected eigenvectors as
  columns of a `d × k` matrix;
* Step 5 (projection): `Z = X_centered · W_k`.

The formulas below embed these steps over `ℝ`, with matrices indexed by
`Fin n` (samples) and `Fin d` (features).  The notebook states the
eigendecomposition only by its defining relation `Σ v = λ v`; no eigensolver
algorithm appears in the source, so the Eigendecomposition Engine is modelled
from the spec via the spectral theorem for real symmetric matrices.
-/

open Matrix BigOperators

namespace PCA

variable {n d k : ℕ}

/-- Step 1: the mean `μ_j` of feature column `j` (average of the column). -/
noncomputable def colMean (X : Matrix (Fin n) (Fin d) ℝ) (j : Fin d) : ℝ :=
  (∑ i, X i j) / n

/-- Step 1: the population variance of feature column `j` (divide by `n`). -/
noncomputable def colVar (X : Matrix (Fin n) (Fin d) ℝ) (j : Fin d) : ℝ :=
  (∑ i, (X i j - colMean X j) ^ 2) / n

/-- Step 1: the population standard deviation `σ_j` of feature column `j`. -/
noncomputable def colStd (X : Matrix (Fin n) (Fin d) ℝ) (j : Fin d) : ℝ :=
  Real.sqrt (colVar X j)

/-- Step 1: z-score normalization, `z_ij = (x_ij - μ_j) / σ_j`. -/
noncomputable def standardize (X : Matrix (Fin n) (Fin d) ℝ) :
    Matrix (Fin n) (Fin d) ℝ :=
  Matrix.of fun i j => (X i j - colMean X j) / colStd X j

/-- Centering only (the `X_centered` of Step 5): subtract the column mean. -/
noncomputable def center (X : Matrix (Fin n) (Fin d) ℝ) :
    Matrix (Fin n) (Fin d) ℝ :=
  Matrix.of fun i j => X i j - colMean X j

/-- Step 2: the covariance matrix `Σ = (1/n) Xᵀ X` of (centered) data `X`. -/
noncomputable def covariance (X : Matrix (Fin n) (Fin d) ℝ) :
    Matrix (Fin d) (Fin d) ℝ :=
  ((n : ℝ))⁻¹ • (Xᵀ * X)

/-- A real matrix that is symmetric (`Aᵀ = A`) is Hermitian. -/
theorem isHermitian_of_symm {A : Matrix (Fin d) (Fin d) ℝ} (hA : Aᵀ = A) :
    A.IsHermitian := by
  rwa [Matrix.IsHermitian, Matrix.conjTranspose_eq_transpose_of_trivial]

/-- The covariance matrix is symmetric: `(1/n) Xᵀ X` equals its transpose. -/
theorem covariance_transpose (X : Matrix (Fin n) (Fin d) ℝ) :
    (covariance X)ᵀ = covariance X := by
  simp [covariance, Matrix.transpose_smul, Matrix.transpose_mul,
    Matrix.transpose_transpose, Matrix.mul_assoc]

/-- The covariance matrix is Hermitian (over `ℝ`: symmetric). -/
theorem covariance_isHermitian (X : Matrix (Fin n) (Fin d) ℝ) :
    (covariance X).IsHermitian :=
  isHermitian_of_symm (covariance_transpose X)

/-- The covariance matrix is positive semi-definite. -/
theorem covariance_posSemidef (X : Matrix (Fin n) (Fin d) ℝ) :
    (covariance X).PosSemidef := by
  constructor
  · exact covariance_isHermitian X
  · intro x
    have h := (Matrix.posSemidef_conjTranspose_mul_self X).2 x
    have hc : Xᴴ = Xᵀ := Matrix.conjTranspose_eq_transpose_of_trivial X
    rw [hc] at h
    calc (0 : ℝ) ≤ ((n : ℝ))⁻¹ * Matrix.dotProduct (star x) ((Xᵀ * X) *ᵥ x) :=
          mul_nonneg (by positivity) h
      _ = Matrix.dotProduct (star x) ((covariance X) *ᵥ x) := by
          simp [covariance, Matrix.smul_mulVec_assoc, Matrix.dotProduct_smul,
            smul_eq_mul]

/-- A column sums to `n` times its mean, so the centered column sums to `0`. -/
theorem sum_sub_colMean (X : Matrix (Fin n) (Fin d) ℝ) (j : Fin d) :
    ∑ i, (X i j - colMean X j) = 0 := by
  rcases Nat.eq_zero_or_pos n with hn | hn
  · subst hn; simp
  · have hn' : (n : ℝ) ≠ 0 := Nat.cast_ne_zero.mpr hn.ne'
    rw [Finset.sum_sub_distrib, Finset.sum_const, Finset.card_univ,
      Fintype.card_fin, colMean, nsmul_eq_mul, mul_div_cancel₀ _ hn', sub_self]

/-- The standardized data has per-feature mean `0`. -/
theorem standardize_colMean (X : Matrix (Fin n) (Fin d) ℝ) (j : Fin d) :
    colMean (standardize X) j = 0 := by
  unfold colMean standardize
  rw [show (∑ i, Matrix.of (fun a b => (X a b - colMean X b) / colStd X b) i j)
        = (∑ i, (X i j - colMean X j)) / colStd X j by
      rw [Finset.sum_div]; rfl,
    sum_sub_colMean, zero_div, zero_div]

/-- The population variance of a column is nonnegative. -/
theorem colVar_nonneg (X : Matrix (Fin n) (Fin d) ℝ) (j : Fin d) :
    0 ≤ colVar X j :=
  div_nonneg (Finset.sum_nonneg fun _ _ => sq_nonneg _) (Nat.cast_nonneg n)

/-- The standard deviation squares back to the variance. -/
theorem colStd_sq (X : Matrix (Fin n) (Fin d) ℝ) (j : Fin d) :
    colStd X j ^ 2 = colVar X j :=
  Real.sq_sqrt (colVar_nonneg X j)

/-- A nonzero standard deviation means a nonzero variance. -/
theorem colVar_ne_zero_of_colStd_ne_zero {X : Matrix (Fin n) (Fin d) ℝ}
    {j : Fin d} (hσ : colStd X j ≠ 0) : colVar X j ≠ 0 := by
  intro h
  exact hσ (by rw [colStd, h, Real.sqrt_zero])

/-- The standardized data has per-feature population variance `1` whenever the
feature's standard deviation is nonzero. -/
theorem standardize_colVar (X : Matrix (Fin n) (Fin d) ℝ) (j : Fin d)
    (hσ : colStd X j ≠ 0) : colVar (standardize X) j = 1 := by
  have hv : colVar X j ≠ 0 := colVar_ne_zero_of_colStd_ne_zero hσ
  unfold colVar
  rw [standardize_colMean]
  have hterm : ∀ i : Fin n,
      (standardize X i j - 0) ^ 2 = (X i j - colMean X j) ^ 2 / colVar X j := by
    intro i
    rw [sub_zero, standardize, Matrix.of_apply, div_pow, colStd_sq]
  rw [Finset.sum_congr rfl fun i _ => hterm i, ← Finset.sum_div,
    div_div, mul_comm, ← div_div]
  have : (∑ i, (X i j - colMean X j) ^ 2) / (n : ℝ) = colVar X j := rfl
  rw [this, div_self hv]

/-- The standardized data has per-feature standard deviation `1` whenever the
feature's standard deviation is nonzero. -/
theorem standardize_colStd (X : Matrix (Fin n) (Fin d) ℝ) (j : Fin d)
    (hσ : colStd X j ≠ 0) : colStd (standardize X) j = 1 := by
  rw [colStd, standardize_colVar X j hσ, Real.sqrt_one]

/-- Step 3's output: an eigenvalue paired with its eigenvector (`Σ v = λ v`). -/
structure EigenPair (d : ℕ) where
  value : ℝ
  vector : Fin d → ℝ

/-- Modelled from the spec: the Eigendecomposition Engine.  The notebook's
Step 3 states only the defining relation `Σ v = λ v` and that `d`
eigenvalue/eigenvector pairs are obtained; no eigensolver algorithm appears in
the source.  Following the spec's contract ("given a symmetric d×d matrix,
returns exactly d EigenPairs" with orthonormal eigenvectors), the engine is
modelled by the spectral decomposition of the Hermitian matrix `A`. -/
noncomputable def eigenPairs {A : Matrix (Fin d) (Fin d) ℝ}
    (hA : A.IsHermitian) : Fin d → EigenPair d :=
  fun i => ⟨hA.eigenvalues i, ⇑(hA.eigenvectorBasis i)⟩

/-- The matrix `V` whose columns are the engine's eigenvectors. -/
noncomputable def eigenvectorMatrix {A : Matrix (Fin d) (Fin d) ℝ}
    (hA : A.IsHermitian) : Matrix (Fin d) (Fin d) ℝ :=
  (hA.eigenvectorUnitary : Matrix (Fin d) (Fin d) ℝ)

/-- Column `i` of `V` is the vector of the `i`-th EigenPair. -/
theorem eigenvectorMatrix_col {A : Matrix (Fin d) (Fin d) ℝ}
    (hA : A.IsHermitian) (i j : Fin d) :
    eigenvectorMatrix hA i j = (eigenPairs hA j).vector i :=
  rfl

/-- The engine's eigenvectors are orthonormal:
`dot(v_i, v_j) = 1` if `i = j` and `0` otherwise. -/
theorem eigenPairs_orthonormal {A : Matrix (Fin d) (Fin d) ℝ}
    (hA : A.IsHermitian) (i j : Fin d) :
    Matrix.dotProduct (eigenPairs hA i).vector (eigenPairs hA j).vector
      = if i = j then 1 else 0 := by
  have h := orthonormal_iff_ite.mp hA.eigenvectorBasis.orthonormal i j
  rw [← h]
  simp [eigenPairs, Matrix.dotProduct, PiLp.inner_apply, RCLike.inner_apply,
    conj_trivial]

/-- The engine pairs each eigenvector with its eigenvalue: `A v = λ v`. -/
theorem eigenPairs_mulVec {A : Matrix (Fin d) (Fin d) ℝ}
    (hA : A.IsHermitian) (i : Fin d) :
    A *ᵥ (eigenPairs hA i).vector = (eigenPairs hA i).value • (eigenPairs hA i).vector :=
  hA.mulVec_eigenvectorBasis i

/-- Over `ℝ`, the star of the eigenvector matrix is its transpose. -/
theorem star_eigenvectorMatrix {A : Matrix (Fin d) (Fin d) ℝ}
    (hA : A.IsHermitian) :
    star (eigenvectorMatrix hA) = (eigenvectorMatrix hA)ᵀ := by
  rw [Matrix.star_eq_conjTranspose, Matrix.conjTranspose_eq_transpose_of_trivial]

/-- The eigenvector matrix is orthogonal: `Vᵀ V = 1`. -/
theorem eigenvectorMatrix_transpose_mul {A : Matrix (Fin d) (Fin d) ℝ}
    (hA : A.IsHermitian) :
    (eigenvectorMatrix hA)ᵀ * eigenvectorMatrix hA = 1 := by
  rw [← star_eigenvectorMatrix]
  exact Matrix.mem_unitaryGroup_iff'.mp hA.eigenvectorUnitary.2

/-- The eigenvector matrix is orthogonal: `V Vᵀ = 1`. -/
theorem eigenvectorMatrix_mul_transpose {A : Matrix (Fin d) (Fin d) ℝ}
    (hA : A.IsHermitian) :
    eigenvectorMatrix hA * (eigenvectorMatrix hA)ᵀ = 1 := by
  rw [← star_eigenvectorMatrix]
  exact Matrix.mem_unitaryGroup_iff.mp hA.eigenvectorUnitary.2

/-- Diagonalization over `ℝ`: `Vᵀ A V = diag(λ)`. -/
theorem transpose_mul_self_mul (hA : (A : Matrix (Fin d) (Fin d) ℝ).IsHermitian) :
    (eigenvectorMatrix hA)ᵀ * A * eigenvectorMatrix hA
      = Matrix.diagonal hA.eigenvalues := by
  have h := hA.star_mul_self_mul_eq_diagonal
  rw [← star_eigenvectorMatrix hA]
  simp only [eigenvectorMatrix]
  simpa [RCLike.ofReal_real_eq_id, Function.id_comp] using h

/-- Spectral theorem over `ℝ`: `A = V diag(λ) Vᵀ`. -/
theorem spectral_theorem_real {A : Matrix (Fin d) (Fin d) ℝ}
    (hA : A.IsHermitian) :
    A = eigenvectorMatrix hA * Matrix.diagonal hA.eigenvalues
        * (eigenvectorMatrix hA)ᵀ := by
  have h := hA.spectral_theorem
  rw [← star_eigenvectorMatrix hA]
  simp only [eigenvectorMatrix]
  simpa [RCLike.ofReal_real_eq_id, Function.id_comp] using h

/-- The sum of the engine's eigenvalues is the trace of the input matrix. -/
theorem sum_eigenvalues_eq_trace {A : Matrix (Fin d) (Fin d) ℝ}
    (hA : A.IsHermitian) : ∑ i, hA.eigenvalues i = A.trace := by
  conv_rhs => rw [spectral_theorem_real hA]
  rw [Matrix.trace_mul_cycle, eigenvectorMatrix_transpose_mul,
    Matrix.one_mul, Matrix.trace_diagonal]

/-- Step 4: the component basis `W_k`, a `d × k` matrix whose columns are the
selected eigenvectors (column `j` is eigenvector `s j`). -/
noncomputable def componentBasis {A : Matrix (Fin d) (Fin d) ℝ}
    (hA : A.IsHermitian) (s : Fin k → Fin d) : Matrix (Fin d) (Fin k) ℝ :=
  (eigenvectorMatrix hA).submatrix id s

/-- Step 5: the projection `Z = X_centered · W_k`. -/
noncomputable def project (Xc : Matrix (Fin n) (Fin d) ℝ)
    (W : Matrix (Fin d) (Fin k) ℝ) : Matrix (Fin n) (Fin k) ℝ :=
  Xc * W

/-- Covariance of projected data: `cov(X·W) = Wᵀ · cov(X) · W`. -/
theorem covariance_mul (X : Matrix (Fin n) (Fin d) ℝ)
    (W : Matrix (Fin d) (Fin k) ℝ) :
    covariance (X * W) = Wᵀ * covariance X * W := by
  simp [covariance, Matrix.transpose_mul, Matrix.mul_smul, Matrix.smul_mul,
    Matrix.mul_assoc]

/-- Conjugating a Hermitian matrix by a selection of its eigenvectors yields
the diagonal matrix of the selected eigenvalues. -/
theorem componentBasis_conj {A : Matrix (Fin d) (Fin d) ℝ} (hA : A.IsHermitian)
    (s : Fin k → Fin d) (hs : Function.Injective s) :
    (componentBasis hA s)ᵀ * A * componentBasis hA s
      = Matrix.diagonal (fun j => hA.eigenvalues (s j)) := by
  have h1 : (componentBasis hA s)ᵀ * A
      = ((eigenvectorMatrix hA)ᵀ * A).submatrix s id := by
    rw [componentBasis, Matrix.transpose_submatrix]
    calc ((eigenvectorMatrix hA)ᵀ).submatrix s id * A
        = ((eigenvectorMatrix hA)ᵀ).submatrix s id * A.submatrix id id := by
          rw [Matrix.submatrix_id_id]
      _ = ((eigenvectorMatrix hA)ᵀ * A).submatrix s id :=
          (Matrix.submatrix_mul _ _ s id id Function.bijective_id).symm
  have h2 : ((eigenvectorMatrix hA)ᵀ * A).submatrix s id * componentBasis hA s
      = ((eigenvectorMatrix hA)ᵀ * A * eigenvectorMatrix hA).submatrix s s := by
    rw [componentBasis]
    exact (Matrix.submatrix_mul _ _ s id s Function.bijective_id).symm
  rw [h1, h2, transpose_mul_self_mul hA, Matrix.submatrix_diagonal _ s hs]
  rfl

/-- The explained variance fraction of component `i`: its eigenvalue divided
by the sum of all `d` eigenvalues (`explained_variance_ratio_`). -/
noncomputable def explainedVariance {A : Matrix (Fin d) (Fin d) ℝ}
    (hA : A.IsHermitian) (i : Fin d) : ℝ :=
  hA.eigenvalues i / ∑ j, hA.eigenvalues j

/-- The cumulative explained variance up to and including component `i`. -/
noncomputable def cumulativeExplained {A : Matrix (Fin d) (Fin d) ℝ}
    (hA : A.IsHermitian) (i : Fin d) : ℝ :=
  ∑ j ∈ Finset.Iic i, explainedVariance hA j

/-- Modelled from the spec: the engine's ordering of EigenPairs ("sort pairs by
eigenvalue descending; ties broken by original index").  The notebook's Step 3
says only "we sort eigenvectors by decreasing eigenvalues" and contains no
sorting code, so the order relation is taken from the spec's words.  A pair is
`(eigenvalue, original index)`; the eigenvector of a pair is the one the engine
produced at the original index. -/
def eigenOrder (a b : ℝ × ℕ) : Prop :=
  b.1 < a.1 ∨ (a.1 = b.1 ∧ a.2 ≤ b.2)

noncomputable instance eigenOrder.instDecidableRel : DecidableRel eigenOrder :=
  fun _ _ => Classical.propDecidable _

instance eigenOrder.instIsTotal : IsTotal (ℝ × ℕ) eigenOrder := by
  constructor
  intro a b
  rcases lt_trichotomy a.1 b.1 with h | h | h
  · exact Or.inr (Or.inl h)
  · rcases le_total a.2 b.2 with h2 | h2
    · exact Or.inl (Or.inr ⟨h, h2⟩)
    · exact Or.inr (Or.inr ⟨h.symm, h2⟩)
  · exact Or.inl (Or.inl h)

instance eigenOrder.instIsTrans : IsTrans (ℝ × ℕ) eigenOrder := by
  constructor
  intro a b c hab hbc
  rcases hab with h1 | ⟨h1, h1'⟩ <;> rcases hbc with h2 | ⟨h2, h2'⟩
  · exact Or.inl (h2.trans h1)
  · exact Or.inl (h2 ▸ h1)
  · exact Or.inl (h1 ▸ h2)
  · exact Or.inr ⟨h1.trans h2, h1'.trans h2'⟩

instance eigenOrder.instIsAntisymm : IsAntisymm (ℝ × ℕ) eigenOrder := by
  constructor
  intro a b hab hba
  rcases hab with h1 | ⟨h1, h1'⟩ <;> rcases hba with h2 | ⟨h2, h2'⟩
  · exact absurd (h1.trans h2) (lt_irrefl _)
  · exact absurd h1 (h2 ▸ lt_irrefl _)
  · exact absurd h2 (h1 ▸ lt_irrefl _)
  · exact Prod.ext h1 (le_antisymm h1' h2')

/-- Modelled from the spec: the engine's sorting step, realised by insertion
sort under `eigenOrder`. -/
noncomputable def sortEigenPairs (l : List (ℝ × ℕ)) : List (ℝ × ℕ) :=
  List.insertionSort eigenOrder l

/-- The engine's list of `(eigenvalue, original index)` pairs before sorting. -/
noncomputable def eigenPairList {A : Matrix (Fin d) (Fin d) ℝ}
    (hA : A.IsHermitian) : List (ℝ × ℕ) :=
  List.ofFn fun i : Fin d => ((eigenPairs hA i).value, (i : ℕ))

/-- Modelled from the spec: the sorted EigenPairs the engine returns. -/
noncomputable def sortedEigenPairs {A : Matrix (Fin d) (Fin d) ℝ}
    (hA : A.IsHermitian) : List (ℝ × ℕ) :=
  sortEigenPairs (eigenPairList hA)

/-- Modelled from the spec: the error taxonomy of the pipeline.  The notebook
has no error handling (its Step 1 formula divides by `σ_i` unguarded); the
spec's §7 taxonomy names `DegenerateFeature` carrying the offending feature
index. -/
inductive PCAError where
  | degenerateFeature (j : ℕ) : PCAError
deriving DecidableEq

/-- Modelled from the spec: the Standardizer under the default policy, which
"fails with a DegenerateFeature error" when some feature has `σ_j = 0`, and
otherwise returns the standardized data (never a partial result). -/
noncomputable def standardizeChecked (X : Matrix (Fin n) (Fin d) ℝ) :
    Except PCAError (Matrix (Fin n) (Fin d) ℝ) :=
  if h : ∃ j, colStd X j = 0 then
    Except.error (PCAError.degenerateFeature (h.choose : Fin d))
  else
    Except.ok (standardize X)

/-! ## Claim theorems -/

/-- C1: for every symmetric `d×d` input matrix, the Eigendecomposition Engine
returns exactly `d` EigenPairs whose eigenvectors are unit-length and mutually
orthogonal (`dot(v_i, v_j) = δ_ij`) and are paired with their correct
eigenvalues (`A v_i = λ_i v_i`), and the input is reconstructed by the
round-trip `A = V · diag(λ) · Vᵀ`. -/
theorem eigendecomposition_engine_spec (A : Matrix (Fin d) (Fin d) ℝ)
    (hA : Aᵀ = A) :
    (List.ofFn (eigenPairs (isHermitian_of_symm hA))).length = d ∧
    (∀ i j, Matrix.dotProduct (eigenPairs (isHermitian_of_symm hA) i).vector
        (eigenPairs (isHermitian_of_symm hA) j).vector
        = if i = j then 1 else 0) ∧
    (∀ i, A *ᵥ (eigenPairs (isHermitian_of_symm hA) i).vector
        = (eigenPairs (isHermitian_of_symm hA) i).value
            • (eigenPairs (isHermitian_of_symm hA) i).vector) ∧
    A = eigenvectorMatrix (isHermitian_of_symm hA)
        * Matrix.diagonal (fun i => (eigenPairs (isHermitian_of_symm hA) i).value)
        * (eigenvectorMatrix (isHermitian_of_symm hA))ᵀ :=
  ⟨by simp, eigenPairs_orthonormal _, eigenPairs_mulVec _,
    spectral_theorem_real _⟩

/-- Witness for C1 at the concrete symmetric matrix `1 : Matrix (Fin 2) (Fin 2) ℝ`. -/
theorem eigendecomposition_engine_spec_witness :
    (1 : Matrix (Fin 2) (Fin 2) ℝ)
      = eigenvectorMatrix (isHermitian_of_symm
          (Matrix.transpose_one : (1 : Matrix (Fin 2) (Fin 2) ℝ)ᵀ = 1))
        * Matrix.diagonal
            (fun i => (eigenPairs (isHermitian_of_symm
              (Matrix.transpose_one : (1 : Matrix (Fin 2) (Fin 2) ℝ)ᵀ = 1)) i).value)
        * (eigenvectorMatrix (isHermitian_of_symm
            (Matrix.transpose_one : (1 : Matrix (Fin 2) (Fin 2) ℝ)ᵀ = 1)))ᵀ :=
  (eigendecomposition_engine_spec (1 : Matrix (Fin 2) (Fin 2) ℝ)
    Matrix.transpose_one).2.2.2

/-- C3: for every dataset, the Covariance Estimator returns
`Σ = (1/n) Xᵀ X`, and this matrix is symmetric (`Σ_ij = Σ_ji` for all `i, j`)
and positive semi-definite. -/
theorem covariance_estimator_spec (X : Matrix (Fin n) (Fin d) ℝ) :
    covariance X = ((n : ℝ))⁻¹ • (Xᵀ * X) ∧
    (∀ i j, covariance X i j = covariance X j i) ∧
    (covariance X).PosSemidef := by
  refine ⟨rfl, ?_, covariance_posSemidef X⟩
  intro i j
  conv_lhs => rw [← covariance_transpose X]
  rfl

/-- C2: for every dataset and every valid selection of `k` components, the
columns of the projected data `Z = X_centered · W_k` are mutually
uncorrelated: the covariance matrix of `Z` is diagonal and its diagonal
entries equal the `k` selected eigenvalues. -/
theorem projection_uncorrelated (X : Matrix (Fin n) (Fin d) ℝ)
    (s : Fin k → Fin d) (hs : Function.Injective s) :
    covariance (project (center X)
        (componentBasis (covariance_isHermitian (center X)) s))
      = Matrix.diagonal
          (fun j => (covariance_isHermitian (center X)).eigenvalues (s j)) := by
  rw [project, covariance_mul, componentBasis_conj _ s hs]

/-- Witness for C2 at the concrete dataset `!![1]` with `k = 1`, `s = id`. -/
theorem projection_uncorrelated_witness :
    covariance (project (center !![(1 : ℝ)])
        (componentBasis (covariance_isHermitian (center !![(1 : ℝ)]))
          (id : Fin 1 → Fin 1)))
      = Matrix.diagonal
          (fun j => (covariance_isHermitian (center !![(1 : ℝ)])).eigenvalues
            (id j)) :=
  projection_uncorrelated !![(1 : ℝ)] id Function.injective_id

/-- C4: for every dataset in which every feature column has non-zero standard
deviation, the Standardizer returns `z_ij = (x_ij − μ_j) / σ_j` with `μ_j` the
column mean and `σ_j` the population standard deviation, and the standardized
output has per-feature mean `0` and standard deviation `1`. -/
theorem standardizer_spec (X : Matrix (Fin n) (Fin d) ℝ)
    (hσ : ∀ j, colStd X j ≠ 0) :
    (∀ i j, standardize X i j = (X i j - colMean X j) / colStd X j) ∧
    (∀ j, colMean (standardize X) j = 0) ∧
    (∀ j, colStd (standardize X) j = 1) :=
  ⟨fun _ _ => rfl, fun j => standardize_colMean X j,
    fun j => standardize_colStd X j (hσ j)⟩

/-- A concrete 2-sample, 1-feature dataset with mean `0` and variance `1`. -/
noncomputable def Xtwo : Matrix (Fin 2) (Fin 1) ℝ := !![1; -1]

theorem Xtwo_colMean (j : Fin 1) : colMean Xtwo j = 0 := by
  fin_cases j
  norm_num [colMean, Fin.sum_univ_two, Xtwo]

theorem Xtwo_colVar (j : Fin 1) : colVar Xtwo j = 1 := by
  fin_cases j
  simp only [colVar, Xtwo_colMean]
  norm_num [Fin.sum_univ_two, Xtwo]

theorem Xtwo_colStd (j : Fin 1) : colStd Xtwo j = 1 := by
  rw [colStd, Xtwo_colVar j, Real.sqrt_one]

/-- Witness for C4 at the concrete dataset `Xtwo`. -/
theorem standardizer_spec_witness :
    (∀ j, colMean (standardize Xtwo) j = 0) ∧
    (∀ j, colStd (standardize Xtwo) j = 1) :=
  (standardizer_spec Xtwo fun j => by rw [Xtwo_colStd j]; norm_num).2

/-- C5: for every dataset, with `k = d` the projection followed by the inverse
projection recovers the original centered data: `Z · Wᵀ = X_centered`. -/
theorem full_projection_roundtrip (X : Matrix (Fin n) (Fin d) ℝ) :
    project (center X)
        (componentBasis (covariance_isHermitian (center X)) (id : Fin d → Fin d))
      * (componentBasis (covariance_isHermitian (center X)) (id : Fin d → Fin d))ᵀ
      = center X := by
  rw [project, componentBasis, Matrix.submatrix_id_id, Matrix.mul_assoc,
    eigenvectorMatrix_mul_transpose, Matrix.mul_one]

/-- C6 counterexample: for the all-zero `1×1` dataset every eigenvalue of the
covariance matrix is `0`, so each explained-variance fraction is `0 / 0 = 0`
and the fractions do not sum to `1`. -/
theorem explained_variance_counterexample :
    ¬ (∑ i, explainedVariance
        (covariance_isHermitian (0 : Matrix (Fin 1) (Fin 1) ℝ)) i = 1) := by
  have htr : (covariance (0 : Matrix (Fin 1) (Fin 1) ℝ)).trace = 0 := by
    simp [covariance]
  have hsum :=
    sum_eigenvalues_eq_trace (covariance_isHermitian (0 : Matrix (Fin 1) (Fin 1) ℝ))
  rw [htr] at hsum
  have h0 : ∀ i, (covariance_isHermitian (0 : Matrix (Fin 1) (Fin 1) ℝ)).eigenvalues i
      = 0 := by
    intro i
    fin_cases i
    simpa [Fin.sum_univ_one] using hsum
  intro hcon
  have hz : ∑ i, explainedVariance
      (covariance_isHermitian (0 : Matrix (Fin 1) (Fin 1) ℝ)) i = 0 :=
    Finset.sum_eq_zero fun i _ => by rw [explainedVariance, h0 i, zero_div]
  rw [hz] at hcon
  exact one_ne_zero hcon.symm

/-- C6 (amended): each explained-variance fraction equals its eigenvalue
divided by the sum of all `d` eigenvalues; whenever the total variance (the
trace of the covariance matrix) is nonzero, the fractions over all `d`
components sum to `1`; and the cumulative sequence is non-decreasing. -/
theorem explained_variance_spec (X : Matrix (Fin n) (Fin d) ℝ) :
    (∀ i, explainedVariance (covariance_isHermitian X) i
        = (covariance_isHermitian X).eigenvalues i
          / ∑ j, (covariance_isHermitian X).eigenvalues j) ∧
    ((covariance X).trace ≠ 0 →
      ∑ i, explainedVariance (covariance_isHermitian X) i = 1) ∧
    (∀ i j, i ≤ j → cumulativeExplained (covariance_isHermitian X) i
        ≤ cumulativeExplained (covariance_isHermitian X) j) := by
  refine ⟨fun _ => rfl, ?_, ?_⟩
  · intro h
    have hS : ∑ j, (covariance_isHermitian X).eigenvalues j ≠ 0 := by
      rw [sum_eigenvalues_eq_trace]; exact h
    rw [show ∑ i, explainedVariance (covariance_isHermitian X) i
        = (∑ i, (covariance_isHermitian X).eigenvalues i)
          / ∑ j, (covariance_isHermitian X).eigenvalues j from
      (Finset.sum_div _ _ _).symm]
    exact div_self hS
  · intro i j hij
    simp only [cumulativeExplained]
    apply Finset.sum_le_sum_of_subset_of_nonneg (Finset.Iic_subset_Iic.mpr hij)
    intro a _ _
    exact div_nonneg ((covariance_posSemidef X).eigenvalues_nonneg a)
      (Finset.sum_nonneg fun b _ => (covariance_posSemidef X).eigenvalues_nonneg b)

/-- C7: the EigenPairs returned by the engine are sorted by eigenvalue in
descending order with ties between equal eigenvalues broken by the pair's
original index, and the ordering is deterministic: any rearrangement of the
pairs that is sorted the same way equals the engine's output. -/
theorem eigen_sort_spec (A : Matrix (Fin d) (Fin d) ℝ) (hA : Aᵀ = A) :
    List.Sorted eigenOrder (sortedEigenPairs (isHermitian_of_symm hA)) ∧
    (sortedEigenPairs (isHermitian_of_symm hA)).Perm
      (eigenPairList (isHermitian_of_symm hA)) ∧
    (∀ l, l.Perm (eigenPairList (isHermitian_of_symm hA)) →
      List.Sorted eigenOrder l →
      l = sortedEigenPairs (isHermitian_of_symm hA)) := by
  refine ⟨List.sorted_insertionSort eigenOrder _,
    List.perm_insertionSort eigenOrder _, ?_⟩
  intro l hp hs
  exact List.eq_of_perm_of_sorted
    (hp.trans (List.perm_insertionSort eigenOrder _).symm) hs
    (List.sorted_insertionSort eigenOrder _)

/-- Witness for C7 at the concrete symmetric matrix `1 : Matrix (Fin 1) (Fin 1) ℝ`. -/
theorem eigen_sort_spec_witness :
    List.Sorted eigenOrder (sortedEigenPairs (isHermitian_of_symm
      (Matrix.transpose_one : (1 : Matrix (Fin 1) (Fin 1) ℝ)ᵀ = 1))) :=
  (eigen_sort_spec (1 : Matrix (Fin 1) (Fin 1) ℝ) Matrix.transpose_one).1

/-- C8: for every dataset containing a zero-variance feature column, the
Standardizer under the default policy fails with a `DegenerateFeature` error
carrying an offending feature index whose standard deviation is zero, and
never returns a standardized result. -/
theorem degenerate_feature_spec (X : Matrix (Fin n) (Fin d) ℝ)
    (h : ∃ j, colVar X j = 0) :
    ∃ j : Fin d, standardizeChecked X
        = Except.error (PCAError.degenerateFeature (j : ℕ)) ∧
      colStd X j = 0 ∧
      ∀ Y, standardizeChecked X ≠ Except.ok Y := by
  have hσ : ∃ j, colStd X j = 0 := by
    obtain ⟨j, hj⟩ := h
    exact ⟨j, by rw [colStd, hj, Real.sqrt_zero]⟩
  refine ⟨hσ.choose, ?_, hσ.choose_spec, ?_⟩
  · rw [standardizeChecked, dif_pos hσ]
  · intro Y hY
    rw [standardizeChecked, dif_pos hσ] at hY
    exact Except.noConfusion hY

/-- A concrete 2-sample, 1-feature dataset with a constant column. -/
noncomputable def Xconst : Matrix (Fin 2) (Fin 1) ℝ := !![3; 3]

/-- Witness for C8 at the concrete constant-column dataset `Xconst`. -/
theorem degenerate_feature_spec_witness :
    ∃ j : Fin 1, standardizeChecked Xconst
        = Except.error (PCAError.degenerateFeature (j : ℕ)) ∧
      colStd Xconst j = 0 ∧
      ∀ Y, standardizeChecked Xconst ≠ Except.ok Y :=
  degenerate_feature_spec Xconst
    ⟨0, by norm_num [colVar, colMean, Fin.sum_univ_two, Xconst]⟩

/-- With zero column mean, the diagonal covariance entry is the column
variance. -/
theorem covariance_diag (X : Matrix (Fin n) (Fin d) ℝ) (j : Fin d)
    (hm : colMean X j = 0) : covariance X j j = colVar X j := by
  have h1 : covariance X j j = (∑ i, X i j * X i j) / n := by
    simp [covariance, Matrix.mul_apply, Matrix.transpose_apply,
      div_eq_inv_mul, Matrix.smul_apply, smul_eq_mul]
  have h2 : colVar X j = (∑ i, X i j * X i j) / n := by
    simp [colVar, hm, sub_zero, pow_two]
  rw [h1, h2]

/-- The concrete dataset `Xtwo` has total variance `1`. -/
theorem Xtwo_cov_trace : (covariance Xtwo).trace = 1 := by
  rw [Matrix.trace, Fin.sum_univ_one]
  rw [show (covariance Xtwo).diag 0 = covariance Xtwo 0 0 from rfl]
  rw [covariance_diag Xtwo 0 (Xtwo_colMean 0), Xtwo_colVar 0]

/-- Witness for C6 at the concrete dataset `Xtwo` (total variance `1 ≠ 0`). -/
theorem explained_variance_spec_witness :
    ∑ i, explainedVariance (covariance_isHermitian Xtwo) i = 1 :=
  (explained_variance_spec Xtwo).2.1 (by rw [Xtwo_cov_trace]; norm_num)

/-- Eigenvalues do not depend on the Hermitian matrix's presentation. -/
theorem eigenvalues_congr {A B : Matrix (Fin d) (Fin d) ℝ} (e : A = B)
    (hA : A.IsHermitian) (hB : B.IsHermitian) :
    hA.eigenvalues = hB.eigenvalues := by
  subst e; rfl

/-- Every eigenvalue of the scalar matrix `c • 1` is `c`. -/
theorem eigenvalues_smul_one (c : ℝ)
    (h : ((c • 1 : Matrix (Fin d) (Fin d) ℝ)).IsHermitian) (i : Fin d) :
    h.eigenvalues i = c := by
  have hd := transpose_mul_self_mul h
  rw [Matrix.mul_smul, Matrix.mul_one, Matrix.smul_mul,
    eigenvectorMatrix_transpose_mul] at hd
  have := congrFun (congrFun hd i) i
  simpa [Matrix.smul_apply, Matrix.one_apply, Matrix.diagonal_apply_eq,
    eq_comm] using this

/-- The spec's scenario dataset: `[[2,0],[0,2],[-2,0],[0,-2]]`. -/
noncomputable def Xnine : Matrix (Fin 4) (Fin 2) ℝ := !![2,0; 0,2; -2,0; 0,-2]

theorem Xnine_transpose : Xnineᵀ = !![2, 0, -2, 0; 0, 2, 0, -2] := by
  ext i j
  fin_cases i <;> fin_cases j <;> rfl

theorem Xnine_covariance : covariance Xnine = (2 : ℝ) • 1 := by
  rw [covariance, Xnine_transpose]
  ext i j
  fin_cases i <;> fin_cases j <;>
    norm_num [Matrix.mul_apply, Fin.sum_univ_four, Xnine, Matrix.smul_apply,
      Matrix.one_apply, Matrix.cons_val_zero, Matrix.cons_val_one,
      Matrix.cons_val_two, Matrix.cons_val_three, Matrix.head_cons,
      Matrix.tail_cons]

/-- C9: for the dataset `[[2,0],[0,2],[-2,0],[0,-2]]` (4 samples, 2 features,
zero-mean, equal variance) the pipeline produces covariance `diag(2,2)`, both
eigenvalues equal to `2`, an orthonormal pair of eigenvectors, and explained
variance fractions `[1/2, 1/2]`. -/
theorem scenario_spec :
    covariance Xnine = !![2, 0; 0, 2] ∧
    (∀ i, (covariance_isHermitian Xnine).eigenvalues i = 2) ∧
    (∀ i j, Matrix.dotProduct
        (eigenPairs (covariance_isHermitian Xnine) i).vector
        (eigenPairs (covariance_isHermitian Xnine) j).vector
        = if i = j then 1 else 0) ∧
    (∀ i, explainedVariance (covariance_isHermitian Xnine) i = 1 / 2) := by
  have h21 : ((2 : ℝ) • 1 : Matrix (Fin 2) (Fin 2) ℝ).IsHermitian :=
    Xnine_covariance ▸ covariance_isHermitian Xnine
  have hev : ∀ i, (covariance_isHermitian Xnine).eigenvalues i = 2 := by
    intro i
    rw [eigenvalues_congr Xnine_covariance (covariance_isHermitian Xnine) h21]
    exact eigenvalues_smul_one 2 h21 i
  refine ⟨?_, hev, eigenPairs_orthonormal _, ?_⟩
  · rw [Xnine_covariance]
    ext i j
    fin_cases i <;> fin_cases j <;>
      norm_num [Matrix.smul_apply, Matrix.one_apply]
  · intro i
    rw [explainedVariance, Fin.sum_univ_two, hev, hev 0, hev 1]
    norm_num

/-- C10: feeding fully standardized data (every `σ_j ≠ 0`) into the covariance
estimator makes every diagonal entry of `Σ` equal to `1`, so the `d`
eigenvalues sum to `d`. -/
theorem standardized_covariance_spec (X : Matrix (Fin n) (Fin d) ℝ)
    (hσ : ∀ j, colStd X j ≠ 0) :
    (∀ j, covariance (standardize X) j j = 1) ∧
    (∑ i, (covariance_isHermitian (standardize X)).eigenvalues i = d) := by
  have hdiag : ∀ j, covariance (standardize X) j j = 1 := by
    intro j
    rw [covariance_diag (standardize X) j (standardize_colMean X j),
      standardize_colVar X j (hσ j)]
  refine ⟨hdiag, ?_⟩
  rw [sum_eigenvalues_eq_trace, Matrix.trace]
  calc ∑ j, (covariance (standardize X)).diag j
      = ∑ _j : Fin d, (1 : ℝ) := Finset.sum_congr rfl fun j _ => hdiag j
    _ = d := by simp

/-- Witness for C10 at the concrete dataset `Xtwo`. -/
theorem standardized_covariance_spec_witness :
    (∀ j, covariance (standardize Xtwo) j j = 1) ∧
    (∑ i, (covariance_isHermitian (standardize Xtwo)).eigenvalues i
      = ((1 : ℕ) : ℝ)) :=
  standardized_covariance_spec Xtwo fun j => by rw [Xtwo_colStd j]; norm_num

end PCA
